import Mathlib

/-!
# Verification of the encoder-to-MIDI-CC pipeline

Shallow embedding of the rotary-encoder input pipeline behind
`src/src/main.cpp` (example 02 of the open-control Teensy examples) and of
the example glue itself.  The example file only configures and drives the
pipeline; the pipeline components (QuadratureDecoder, EncoderValueModel,
EncoderController/Registry, EventBinding) live in the `oc` library and are
modelled here from the specification, as marked on each definition.
-/

/-- A sampled 2-bit quadrature pin state: `(A, B)`. -/
abbrev PinState := Bool × Bool

/-- Modelled from the spec: the four valid quadrature states `00, 01, 11, 10`
form a cycle (Gray code); this is the position of a state in that cycle. -/
def grayIndex : PinState → Fin 4
  | (false, false) => 0
  | (false, true) => 1
  | (true, true) => 2
  | (true, false) => 3

/-- Inverse of `grayIndex`: the pin state at a given cycle position. -/
def grayState : Fin 4 → PinState
  | 0 => (false, false)
  | 1 => (false, true)
  | 2 => (true, true)
  | 3 => (true, false)

/-- The state one clockwise step around the quadrature cycle. -/
def cwStep (p : PinState) : PinState := grayState (grayIndex p + 1)

/-- The state one counter-clockwise step around the quadrature cycle. -/
def ccwStep (p : PinState) : PinState := grayState (grayIndex p - 1)

/-- Modelled from the spec (§4.1, QuadratureDecoder, not under `src/`):
pure step function `(previous state, new sample) → (new state, tick delta)`.
A single clockwise step yields `+1`, a single counter-clockwise step `-1`;
anything else (no movement, or a non-adjacent "skip" transition treated as
bounce) yields `0`; the stored state always becomes the new sample. -/
def decodeStep (prev new : PinState) : PinState × ℤ :=
  let diff : Fin 4 := grayIndex new - grayIndex prev
  (new, if diff = 1 then 1 else if diff = 3 then -1 else 0)

/-- C1: a quadrature step to the clockwise-adjacent state emits exactly `+1`,
to the counter-clockwise-adjacent state exactly `-1`; a non-adjacent (skip)
transition emits `0` ticks while the internal state still updates to the new
sample; and the emitted delta is always one of `-1`, `0`, `+1`. -/
theorem decodeStep_correct (prev new : PinState) :
    (new = cwStep prev → (decodeStep prev new).2 = 1)
    ∧ (new = ccwStep prev → (decodeStep prev new).2 = -1)
    ∧ (new ≠ prev → new ≠ cwStep prev → new ≠ ccwStep prev →
        (decodeStep prev new).2 = 0 ∧ (decodeStep prev new).1 = new)
    ∧ ((decodeStep prev new).2 = -1 ∨ (decodeStep prev new).2 = 0
        ∨ (decodeStep prev new).2 = 1) := by
  revert prev new
  decide

/-- Witness for C1 at concrete transitions: `00 → 01` is a clockwise step
emitting `+1`, and `00 → 11` is a skip emitting `0` with the state updated. -/
theorem decodeStep_correct_witness :
    (decodeStep (false, false) (false, true)).2 = 1
    ∧ (decodeStep (false, false) (true, true)).2 = 0
    ∧ (decodeStep (false, false) (true, true)).1 = (true, true) := by
  refine ⟨(decodeStep_correct (false, false) (false, true)).1 (by decide), ?_, ?_⟩
  · exact ((decodeStep_correct (false, false) (true, true)).2.2.1 (by decide)
      (by decide) (by decide)).1
  · exact ((decodeStep_correct (false, false) (true, true)).2.2.1 (by decide)
      (by decide) (by decide)).2

/-- Hardware descriptor of one encoder, as constructed in `src/src/main.cpp`:
`EncoderDef(id, pinA, pinB, ppr, rangeAngle, ticksPerEvent, invertDirection)`. -/
structure EncoderDef where
  id : ℕ
  pinA : ℕ
  pinB : ℕ
  ppr : ℕ
  rangeAngle : ℕ
  ticksPerLogicalEvent : ℕ
  invertDirection : Bool
deriving DecidableEq

/-- First encoder of `ENCODERS` in the first `main.cpp` variant:
`EncoderDef(1, 22, 23, 24, 270, 4, false)`. -/
def encoder1 : EncoderDef := ⟨1, 22, 23, 24, 270, 4, false⟩

/-- Second encoder of `ENCODERS` in the first `main.cpp` variant:
`EncoderDef(2, 18, 19, 24, 270, 4, false)`. -/
def encoder2 : EncoderDef := ⟨2, 18, 19, 24, 270, 4, false⟩

/-- First encoder of `Config::ENCODERS` in the second `main.cpp` variant:
`EncoderDef(1, 22, 23, 24, 270, 4, true)` — note `invertDirection = true`. -/
def cfgEncoder1 : EncoderDef := ⟨1, 22, 23, 24, 270, 4, true⟩

/-- Second encoder of `Config::ENCODERS` in the second `main.cpp` variant:
`EncoderDef(2, 18, 19, 24, 270, 4, true)`. -/
def cfgEncoder2 : EncoderDef := ⟨2, 18, 19, 24, 270, 4, true⟩

/-- The configured encoder set of the first `main.cpp` variant. -/
def configuredEncoders : List EncoderDef := [encoder1, encoder2]

/-- Modelled from the spec (§4.2, EncoderValueModel, not under `src/`):
`invertDirection` negates the decoded tick delta before accumulation,
applied once, regardless of mode. -/
def effDelta (d : EncoderDef) (t : ℤ) : ℤ :=
  if d.invertDirection then -t else t

/-- The same descriptor with `invertDirection` set to `b`. -/
def setInvert (d : EncoderDef) (b : Bool) : EncoderDef :=
  { d with invertDirection := b }

/-- Modelled from the spec (§4.2, not under `src/`): number of raw decoder
ticks spanning the full logical range in `NORMALIZED` mode — `ppr` detents per
revolution, `ticksPerLogicalEvent` ticks per detent, of which the fraction
`rangeAngle / 360` of a revolution maps onto `[0, 1]`. -/
def maxTicks (d : EncoderDef) : ℕ :=
  d.ppr * d.ticksPerLogicalEvent * d.rangeAngle / 360

/-- Modelled from the spec (§4.2, `NORMALIZED` mode, not under `src/`): one
tick delta folded into the internal position counter; the counter itself is
clamped to `[0, maxTicks]` (saturating, not wrapping). -/
def normStep (d : EncoderDef) (c : ℤ) (t : ℤ) : ℤ :=
  max 0 (min (maxTicks d) (c + effDelta d t))

/-- The internal `NORMALIZED` position counter after folding a tick sequence
from the initial counter `0`. -/
def normCounter (d : EncoderDef) (ts : List ℤ) : ℤ :=
  ts.foldl (normStep d) 0

/-- Modelled from the spec (§4.2, not under `src/`): the emitted `NORMALIZED`
value — the counter scaled to a fraction of the full range, clamped to
`[0, 1]`.  Rationals stand in for the target's `float`. -/
def normValue (d : EncoderDef) (c : ℤ) : ℚ :=
  min 1 (max 0 ((c : ℚ) / (maxTicks d : ℚ)))

/-- `normStep` keeps the counter within `[0, maxTicks]`. -/
theorem normStep_bounds (d : EncoderDef) (c t : ℤ) :
    0 ≤ normStep d c t ∧ normStep d c t ≤ maxTicks d := by
  unfold normStep
  constructor
  · exact le_max_left 0 _
  · have h1 : min (maxTicks d : ℤ) (c + effDelta d t) ≤ (maxTicks d : ℤ) :=
      min_le_left _ _
    have h0 : (0 : ℤ) ≤ (maxTicks d : ℤ) := Int.ofNat_nonneg _
    exact max_le h0 h1

/-- The fold of `normStep` from any in-range counter stays in range. -/
theorem normCounter_fold_bounds (d : EncoderDef) (ts : List ℤ) (c : ℤ)
    (h0 : 0 ≤ c) (h1 : c ≤ maxTicks d) :
    0 ≤ ts.foldl (normStep d) c ∧ ts.foldl (normStep d) c ≤ maxTicks d := by
  induction ts generalizing c with
  | nil => exact ⟨h0, h1⟩
  | cons t ts ih =>
    simpa using ih (normStep d c t) (normStep_bounds d c t).1 (normStep_bounds d c t).2

/-- C2: in `NORMALIZED` mode, after any finite sequence of accepted tick
deltas from initialization, the internal counter stays in `[0, maxTicks]`
(the clamp saturates rather than wraps) and the emitted value is a
well-defined rational in `[0, 1]` — including sequences whose unscaled sum
would exceed the range. -/
theorem normalized_value_in_range (d : EncoderDef) (ts : List ℤ) :
    0 ≤ normCounter d ts ∧ normCounter d ts ≤ maxTicks d
    ∧ 0 ≤ normValue d (normCounter d ts)
    ∧ normValue d (normCounter d ts) ≤ 1
    ∧ normValue d (normCounter d ts)
        = (normCounter d ts : ℚ) / (maxTicks d : ℚ) := by
  obtain ⟨hc0, hc1⟩ :=
    normCounter_fold_bounds d ts 0 le_rfl (Int.ofNat_nonneg _)
  have hq0 : (0 : ℚ) ≤ (normCounter d ts : ℚ) / (maxTicks d : ℚ) := by
    apply div_nonneg
    · exact_mod_cast hc0
    · exact Nat.cast_nonneg _
  have hq1 : (normCounter d ts : ℚ) / (maxTicks d : ℚ) ≤ 1 := by
    rcases Nat.eq_zero_or_pos (maxTicks d) with hM | hM
    · simp [hM]
    · rw [div_le_one (by exact_mod_cast hM)]
      exact_mod_cast hc1
  have hval : normValue d (normCounter d ts)
      = (normCounter d ts : ℚ) / (maxTicks d : ℚ) := by
    unfold normValue
    rw [max_eq_right hq0, min_eq_right hq1]
  refine ⟨hc0, hc1, ?_, ?_, hval⟩
  · rw [hval]; exact hq0
  · rw [hval]; exact hq1

/-- C3: in `NORMALIZED` mode the counter itself is clamped at the range
limits.  Pinned at a limit, a further tick in the same direction changes
neither the counter nor the emitted value; the very first tick back in the
opposite direction moves the counter by one and produces a visible value
change — no hidden overrun accumulates. -/
theorem normalized_counter_pinned (d : EncoderDef) (hM : 0 < maxTicks d)
    (t : ℤ) :
    (0 ≤ effDelta d t →
      normStep d (maxTicks d) t = maxTicks d
      ∧ normValue d (normStep d (maxTicks d) t) = normValue d (maxTicks d))
    ∧ (effDelta d t ≤ 0 →
      normStep d 0 t = 0
      ∧ normValue d (normStep d 0 t) = normValue d 0)
    ∧ (effDelta d t = -1 →
      normStep d (maxTicks d) t = (maxTicks d : ℤ) - 1
      ∧ normValue d (normStep d (maxTicks d) t) < normValue d (maxTicks d))
    ∧ (effDelta d t = 1 →
      normStep d 0 t = 1
      ∧ normValue d 0 < normValue d (normStep d 0 t)) := by
  have hMq : (0 : ℚ) < (maxTicks d : ℚ) := by exact_mod_cast hM
  have hMq1 : (1 : ℚ) ≤ (maxTicks d : ℚ) := by exact_mod_cast hM
  have ecast : (((maxTicks d : ℤ)) : ℚ) = (maxTicks d : ℚ) := by push_cast; ring
  have hvM : normValue d (maxTicks d) = 1 := by
    unfold normValue
    rw [ecast, div_self (ne_of_gt hMq)]
    norm_num
  have hvM1 : normValue d ((maxTicks d : ℤ) - 1)
      = ((maxTicks d : ℚ) - 1) / (maxTicks d : ℚ) := by
    unfold normValue
    have hx0 : (0 : ℚ) ≤ ((maxTicks d : ℚ) - 1) / (maxTicks d : ℚ) :=
      div_nonneg (by linarith) hMq.le
    have hx1 : ((maxTicks d : ℚ) - 1) / (maxTicks d : ℚ) ≤ 1 := by
      rw [div_le_one hMq]; linarith
    push_cast
    rw [max_eq_right hx0, min_eq_right hx1]
  have hv0 : normValue d 0 = 0 := by
    unfold normValue; norm_num
  have hv1 : normValue d 1 = 1 / (maxTicks d : ℚ) := by
    unfold normValue
    have hx0 : (0 : ℚ) ≤ 1 / (maxTicks d : ℚ) := by positivity
    have hx1 : 1 / (maxTicks d : ℚ) ≤ 1 := by
      rw [div_le_one hMq]; exact hMq1
    push_cast
    rw [max_eq_right hx0, min_eq_right hx1]
  refine ⟨?_, ?_, ?_, ?_⟩
  · intro h
    have hc : normStep d (maxTicks d) t = maxTicks d := by
      unfold normStep; omega
    exact ⟨hc, by rw [hc]⟩
  · intro h
    have hc : normStep d 0 t = 0 := by
      unfold normStep; omega
    exact ⟨hc, by rw [hc]⟩
  · intro h
    have hc : normStep d (maxTicks d) t = (maxTicks d : ℤ) - 1 := by
      unfold normStep; omega
    refine ⟨hc, ?_⟩
    rw [hc, hvM1, hvM, div_lt_one hMq]
    linarith
  · intro h
    have hc : normStep d 0 t = 1 := by
      unfold normStep; omega
    refine ⟨hc, ?_⟩
    rw [hc, hv1, hv0]
    positivity

/-- Witness for C3 at the configured encoder `cfgEncoder1`
(`invertDirection = true`, `maxTicks = 72`): at the upper limit, the raw tick
`+1` (effective `-1`) steps the counter down to `71`. -/
theorem normalized_counter_pinned_witness :
    0 < maxTicks cfgEncoder1
    ∧ normStep cfgEncoder1 (maxTicks cfgEncoder1) 1 = (maxTicks cfgEncoder1 : ℤ) - 1 :=
  ⟨by decide,
    ((normalized_counter_pinned cfgEncoder1 (by decide) 1).2.2.1 (by decide)).1⟩

/-- The stream of tick deltas the decoder emits while consuming a sequence of
pin samples, starting from a given decoder state. -/
def decodeDeltas : PinState → List PinState → List ℤ
  | _, [] => []
  | prev, s :: rest => (decodeStep prev s).2 :: decodeDeltas (decodeStep prev s).1 rest

/-- Modelled from the spec (§4.2, `RAW` accumulation, not under `src/`): the
net decoded tick count of a sample sequence after direction inversion — the
value the pipeline accumulates from the sequence. -/
def rawDecode (d : EncoderDef) (init : PinState) (seq : List PinState) : ℤ :=
  ((decodeDeltas init seq).map (effDelta d)).sum

/-- Summing the pointwise negation of an integer list negates the sum. -/
theorem sum_map_negated (l : List ℤ) : (l.map (fun x => -x)).sum = -l.sum := by
  induction l with
  | nil => simp
  | cons x xs ih => simp [ih]; ring

/-- C4: decoding a transition sequence with `invertDirection = true` yields
the exact negation of decoding it with `invertDirection = false`; the
negation is applied exactly once to the tick delta before accumulation —
pointwise on `effDelta`, and hence inside the clamped `NORMALIZED`
accumulation step as well. -/
theorem invert_negates_decode (d : EncoderDef) (init : PinState)
    (seq : List PinState) :
    rawDecode (setInvert d true) init seq
      = -rawDecode (setInvert d false) init seq
    ∧ (∀ t, effDelta (setInvert d true) t = -effDelta (setInvert d false) t)
    ∧ (∀ c t, normStep (setInvert d true) c t = normStep (setInvert d false) c (-t)) := by
  refine ⟨?_, ?_, ?_⟩
  · unfold rawDecode
    have h1 : effDelta (setInvert d true) = fun t => -t := by
      funext t; simp [effDelta, setInvert]
    have h2 : effDelta (setInvert d false) = fun t => t := by
      funext t; simp [effDelta, setInvert]
    rw [h1, h2]
    simpa using sum_map_negated (decodeDeltas init seq)
  · intro t; simp [effDelta, setInvert]
  · intro c t; simp [normStep, effDelta, setInvert, maxTicks]

/-- Modelled from the spec (§4.2, `RELATIVE` mode, not under `src/`): one
update cycle — the ticks accepted during the poll are folded (after
inversion) into the accumulation counter; a non-zero accumulated batch is
emitted as one signed delta and the counter resets to zero, otherwise
nothing is emitted. -/
def relCycle (d : EncoderDef) (acc : ℤ) (ticks : List ℤ) : ℤ × Option ℤ :=
  let a := acc + (ticks.map (effDelta d)).sum
  if a = 0 then (a, none) else (0, some a)

/-- A run of `RELATIVE` update cycles: final accumulation counter and the
list of emitted deltas, in order. -/
def relRun (d : EncoderDef) (acc : ℤ) : List (List ℤ) → ℤ × List ℤ
  | [] => (acc, [])
  | c :: rest =>
    let step := relCycle d acc c
    let next := relRun d step.1 rest
    (next.1, step.2.toList ++ next.2)

/-- Emitted deltas plus the leftover counter account exactly for the net
accepted ticks, from any starting counter. -/
theorem relRun_sum (d : EncoderDef) (cycles : List (List ℤ)) (acc : ℤ) :
    (relRun d acc cycles).2.sum + (relRun d acc cycles).1
      = acc + (cycles.map (fun c => (c.map (effDelta d)).sum)).sum := by
  induction cycles generalizing acc with
  | nil => simp [relRun]
  | cons c rest ih =>
    by_cases h : acc + ((c.map (effDelta d)).sum) = 0
    · simp only [relRun, relCycle, if_pos h, Option.toList, List.nil_append,
        List.map_cons, List.sum_cons]
      have := ih (acc + (c.map (effDelta d)).sum)
      omega
    · simp only [relRun, relCycle, if_neg h, Option.toList, List.cons_append,
        List.nil_append, List.sum_cons, List.map_cons]
      have := ih 0
      omega

/-- C5: in `RELATIVE` mode the emitted deltas sum (with the pending counter)
to the net accepted tick count; the counter is reset to zero immediately
after each emission, the emitted delta equals the whole batch accumulated
since the previous reset (possibly of magnitude greater than one), and each
update cycle emits at most one delta — no absolute position is exposed. -/
theorem relative_mode_deltas (d : EncoderDef) (cycles : List (List ℤ)) :
    (relRun d 0 cycles).2.sum + (relRun d 0 cycles).1
      = (cycles.map (fun c => (c.map (effDelta d)).sum)).sum
    ∧ (∀ acc ticks e, (relCycle d acc ticks).2 = some e →
        (relCycle d acc ticks).1 = 0
        ∧ e = acc + (ticks.map (effDelta d)).sum)
    ∧ (∀ acc ticks, (relCycle d acc ticks).2.toList.length ≤ 1) := by
  refine ⟨by simpa using relRun_sum d cycles 0, ?_, ?_⟩
  · intro acc ticks e h
    unfold relCycle at *
    by_cases ha : acc + (ticks.map (effDelta d)).sum = 0
    · simp [ha] at h
    · simp [ha] at h ⊢
      omega
  · intro acc ticks
    unfold relCycle
    by_cases ha : acc + (ticks.map (effDelta d)).sum = 0
    · simp [ha]
    · simp [ha]

/-- Witness for C5: encoder 1, one poll with three ticks then one opposite
tick — the first cycle batches the three ticks into the single delta `3`
and resets the counter to `0`. -/
theorem relative_mode_deltas_witness :
    ((relRun encoder1 0 [[1, 1, 1], [-1]]).2.sum
        + (relRun encoder1 0 [[1, 1, 1], [-1]]).1
      = ([[1, 1, 1], [-1]].map
          (fun c => (c.map (effDelta encoder1)).sum)).sum)
    ∧ (relCycle encoder1 0 [1, 1, 1]).1 = 0
    ∧ (3 : ℤ) = 0 + ([1, 1, 1].map (effDelta encoder1)).sum := by
  have h := relative_mode_deltas encoder1 [[1, 1, 1], [-1]]
  have h2 := h.2.1 0 [1, 1, 1] 3 (by decide)
  exact ⟨h.1, h2.1, h2.2⟩

/-- Modelled from the spec (§3, EncoderRuntimeState, not under `src/`):
per-encoder mutable state — last sampled pin state, accumulated position
counter, last emitted value. -/
structure EncState where
  qstate : PinState
  counter : ℤ
  lastValue : ℚ
deriving DecidableEq

/-- A decoder step that re-samples the stored state moves nothing. -/
theorem decodeStep_self (p : PinState) : decodeStep p p = (p, 0) := by
  revert p; decide

/-- A zero tick delta is unaffected by direction inversion. -/
theorem effDelta_zero (d : EncoderDef) : effDelta d 0 = 0 := by
  simp [effDelta]

/-- A zero tick delta leaves an in-range counter unchanged. -/
theorem normStep_zero (d : EncoderDef) (c : ℤ) (h0 : 0 ≤ c)
    (h1 : c ≤ maxTicks d) : normStep d c 0 = c := by
  unfold normStep
  rw [effDelta_zero]
  omega

/-- Modelled from the spec (§4.3, EncoderController.update, not under
`src/`): one poll of one encoder in `NORMALIZED` mode — sample the pins,
decode, accumulate, and invoke the listeners (returned as `(id, value)`
events) only when the newly computed value differs from the last emitted
value. -/
def encUpdate (d : EncoderDef) (s : EncState) (pins : PinState) :
    EncState × List (ℕ × ℚ) :=
  let st := decodeStep s.qstate pins
  let c := normStep d s.counter st.2
  let v := normValue d c
  if v = s.lastValue then (⟨st.1, c, s.lastValue⟩, [])
  else (⟨st.1, c, v⟩, [(d.id, v)])

/-- Modelled from the spec (§4.3, not under `src/`): `update()` polls every
configured encoder in configuration order against its pin sample and
concatenates the dispatched `(id, value)` events. -/
def controllerUpdate (encs : List (EncoderDef × EncState))
    (pins : List PinState) : List (ℕ × ℚ) :=
  ((encs.zip pins).map (fun p => (encUpdate p.1.1 p.1.2 p.2).2)).flatten

/-- A poll whose pin sample equals the stored state, on consistent state,
emits no event. -/
theorem encUpdate_no_change (d : EncoderDef) (s : EncState)
    (h0 : 0 ≤ s.counter) (h1 : s.counter ≤ maxTicks d)
    (hl : s.lastValue = normValue d s.counter) :
    (encUpdate d s s.qstate).2 = [] := by
  simp only [encUpdate, decodeStep_self s.qstate,
    normStep_zero d s.counter h0 h1]
  rw [if_pos hl.symm]

/-- C6: an `update()` that observes, for every encoder, pin states identical
to the previous sample (on consistent runtime state: in-range counter, last
emitted value current) invokes zero listener callbacks; and listeners are
invoked only when the newly computed value differs from the last emitted
value. -/
theorem no_pin_change_no_callbacks (encs : List (EncoderDef × EncState))
    (pins : List PinState)
    (hinv : ∀ p ∈ encs.zip pins,
      p.2 = p.1.2.qstate
      ∧ 0 ≤ p.1.2.counter ∧ p.1.2.counter ≤ maxTicks p.1.1
      ∧ p.1.2.lastValue = normValue p.1.1 p.1.2.counter) :
    controllerUpdate encs pins = []
    ∧ ∀ d s ps, (encUpdate d s ps).2 ≠ [] →
      normValue d (normStep d s.counter (decodeStep s.qstate ps).2)
        ≠ s.lastValue := by
  constructor
  · unfold controllerUpdate
    have hall : ∀ l : List ((EncoderDef × EncState) × PinState),
        (∀ p ∈ l, (encUpdate p.1.1 p.1.2 p.2).2 = []) →
        (l.map (fun p => (encUpdate p.1.1 p.1.2 p.2).2)).flatten = [] := by
      intro l
      induction l with
      | nil => intro _; rfl
      | cons x xs ih =>
        intro hx
        simp only [List.map_cons, List.flatten_cons,
          hx x (List.mem_cons_self x xs), List.nil_append]
        exact ih (fun p hp => hx p (List.mem_cons_of_mem x hp))
    apply hall
    intro p hp
    obtain ⟨hq, hb0, hb1, hv⟩ := hinv p hp
    rw [hq]
    exact encUpdate_no_change p.1.1 p.1.2 hb0 hb1 hv
  · intro d s ps h
    by_cases hv : normValue d (normStep d s.counter (decodeStep s.qstate ps).2)
        = s.lastValue
    · exfalso
      apply h
      simp only [encUpdate]
      rw [if_pos hv]
    · exact hv

/-- Witness for C6: one configured encoder at rest (state `00`, counter `0`,
last value `0`) polled with the unchanged sample `00` dispatches nothing. -/
theorem no_pin_change_no_callbacks_witness :
    controllerUpdate [(encoder1, ⟨(false, false), 0, 0⟩)] [(false, false)]
      = [] := by
  apply (no_pin_change_no_callbacks
    [(encoder1, ⟨(false, false), 0, 0⟩)] [(false, false)] ?_).1
  intro p hp
  have hp' : p = ((encoder1, ⟨(false, false), 0, 0⟩), (false, false)) := by
    simpa [List.zip] using hp
  subst hp'
  refine ⟨rfl, le_rfl, ?_, ?_⟩
  · norm_num [maxTicks, encoder1]
  · simp [normValue]

/-- Error taxonomy surfaced by the pipeline's configuration-time API
(`oc::Result`, not under `src/`): validation failures are reported as a
configuration error. -/
inductive OCError where
  | configurationError
deriving DecidableEq

/-- Modelled from the spec (§4.3, listener registry, not under `src/`): the
configured encoder ids and the listeners bound so far, as `(id, callback)`
pairs in registration order. -/
structure Registry where
  ids : List ℕ
  listeners : List (ℕ × ℕ)
deriving DecidableEq

/-- Modelled from the spec (§4.3, `setCallback`, not under `src/`): binding
a listener validates the encoder id at bind time — a configured id appends
the listener in registration order, an unconfigured id fails immediately
with a configuration error. -/
def setCallback (r : Registry) (id : ℕ) (cb : ℕ) : Except OCError Registry :=
  if id ∈ r.ids then .ok { r with listeners := r.listeners ++ [(id, cb)] }
  else .error .configurationError

/-- Modelled from the spec (§4.4, EventBinding, not under `src/`): the
fluent `onEncoder(id).turn().then(cb)` registration validates and forwards
eagerly to the controller's bind contract, with no buffering or deferral. -/
def onEncoderTurnThen (r : Registry) (id : ℕ) (cb : ℕ) :
    Except OCError Registry :=
  setCallback r id cb

/-- C7: registering a listener for an id not in the configured set — via
`setCallback` or the fluent `onEncoder(id).turn().then(...)` binding —
returns a configuration error at bind time, before any `update()` runs; a
configured id registers the listener immediately, so a registration is
never silently dropped. -/
theorem bind_unconfigured_fails (r : Registry) (id cb : ℕ)
    (h : id ∉ r.ids) :
    setCallback r id cb = .error .configurationError
    ∧ onEncoderTurnThen r id cb = .error .configurationError
    ∧ ∀ id' cb', id' ∈ r.ids →
      setCallback r id' cb'
        = .ok { r with listeners := r.listeners ++ [(id', cb')] } := by
  refine ⟨?_, ?_, ?_⟩
  · simp [setCallback, h]
  · simp [onEncoderTurnThen, setCallback, h]
  · intro id' cb' h'
    simp [setCallback, h']

/-- Witness for C7: with configured ids `[1, 2]`, binding id `3` fails with
a configuration error, both directly and through the fluent binding. -/
theorem bind_unconfigured_fails_witness :
    setCallback ⟨[1, 2], []⟩ 3 0 = .error .configurationError
    ∧ onEncoderTurnThen ⟨[1, 2], []⟩ 3 0 = .error .configurationError :=
  ⟨(bind_unconfigured_fails ⟨[1, 2], []⟩ 3 0 (by decide)).1,
    (bind_unconfigured_fails ⟨[1, 2], []⟩ 3 0 (by decide)).2.1⟩

/-- Modelled from the spec (§4.3 `init()` / §7, not under `src/`):
configuration validation — unique ids, positive `ppr` and
`ticksPerLogicalEvent`, and valid pins (pin validity abstracted as a
predicate, since the platform defines it) — returning an explicit
success/failure result.  A failed validation yields a configuration
error. -/
def encodersInit (pinOk : ℕ → Bool) (defs : List EncoderDef) :
    Except OCError Unit :=
  if (defs.map EncoderDef.id).Nodup
      ∧ ∀ d ∈ defs, 0 < d.ppr ∧ 0 < d.ticksPerLogicalEvent
          ∧ pinOk d.pinA = true ∧ pinOk d.pinB = true
  then .ok () else .error .configurationError

/-- Outcome of `setup()` in `src/src/main.cpp`: either the program reaches
the polling loop or it loops forever on an initialization error. -/
inductive StartupOutcome where
  | haltedForever
  | running
deriving DecidableEq

/-- Embeds `setup()` of `src/src/main.cpp` (lines 58–90): if `midi.init()`
fails the program loops forever; if `encoders.init()` fails the program
loops forever; otherwise startup completes and the polling loop runs. -/
def setupRun (midiInit encInit : Except OCError Unit) : StartupOutcome :=
  match midiInit with
  | .error _ => .haltedForever
  | .ok _ =>
    match encInit with
    | .error _ => .haltedForever
    | .ok _ => .running

/-- Number of `loop()` iterations (hence `encoders.update()` calls) executed
out of `n` scheduled ones: zero when startup halted. -/
def updatesExecuted (midiInit encInit : Except OCError Unit) (n : ℕ) : ℕ :=
  match setupRun midiInit encInit with
  | .haltedForever => 0
  | .running => n

/-- C8: `init()` returns an explicit success/failure value; a duplicate id,
a non-positive `ppr` or `ticksPerLogicalEvent`, or an invalid pin makes it
fail with a configuration error; and whenever it fails, `setup()` loops
forever, so `update()` is never executed with an unvalidated
configuration. -/
theorem init_failure_halts (pinOk : ℕ → Bool) (defs : List EncoderDef)
    (m : Except OCError Unit) :
    (encodersInit pinOk defs = .ok ()
      ∨ encodersInit pinOk defs = .error .configurationError)
    ∧ (¬ (defs.map EncoderDef.id).Nodup →
        encodersInit pinOk defs = .error .configurationError)
    ∧ ((∃ d ∈ defs, d.ppr = 0 ∨ d.ticksPerLogicalEvent = 0
          ∨ pinOk d.pinA = false ∨ pinOk d.pinB = false) →
        encodersInit pinOk defs = .error .configurationError)
    ∧ (∀ e, encodersInit pinOk defs = .error e →
        setupRun m (encodersInit pinOk defs) = .haltedForever
        ∧ ∀ n, updatesExecuted m (encodersInit pinOk defs) n = 0) := by
  refine ⟨?_, ?_, ?_, ?_⟩
  · unfold encodersInit
    split
    · exact Or.inl rfl
    · exact Or.inr rfl
  · intro h
    unfold encodersInit
    rw [if_neg]
    intro hc
    exact h hc.1
  · intro h
    obtain ⟨d, hd, hviol⟩ := h
    unfold encodersInit
    rw [if_neg]
    intro hc
    obtain ⟨hp, ht, ha, hb⟩ := hc.2 d hd
    rcases hviol with h1 | h1 | h1 | h1 <;> simp_all
  · intro e he
    rw [he]
    constructor
    · cases m <;> rfl
    · intro n
      unfold updatesExecuted
      cases m <;> simp [setupRun]

/-- Witness for C8: a configuration with a duplicated id fails validation
and, even with MIDI initialized, startup halts and zero updates execute. -/
theorem init_failure_halts_witness :
    (¬ ([encoder1, encoder1].map EncoderDef.id).Nodup)
    ∧ encodersInit (fun _ => true) [encoder1, encoder1]
        = .error .configurationError
    ∧ setupRun (.ok ()) (encodersInit (fun _ => true) [encoder1, encoder1])
        = .haltedForever
    ∧ updatesExecuted (.ok ()) (encodersInit (fun _ => true) [encoder1, encoder1]) 5
        = 0 := by
  have hdup : ¬ ([encoder1, encoder1].map EncoderDef.id).Nodup := by
    simp [encoder1]
  have h := init_failure_halts (fun _ => true) [encoder1, encoder1] (.ok ())
  have herr := h.2.1 hdup
  have hhalt := h.2.2.2 .configurationError herr
  exact ⟨hdup, herr, hhalt.1, hhalt.2 5⟩

/-- The MIDI channel used by the example (`MIDI_CHANNEL = 0` in
`src/src/main.cpp`). -/
def midiChannel : ℕ := 0

/-- The controller number for an encoder id in the example's callback:
`cc = CC_BASE + id - 1` with `CC_BASE = 16` and 1-based ids
(`src/src/main.cpp`, setCallback lambda). -/
def ccForId (id : ℕ) : ℕ := 16 + id - 1

/-- The example callback's final MIDI quantization
(`static_cast<uint8_t>(value * 127.0f)` in `src/src/main.cpp`): for the
non-negative values delivered, C truncation toward zero is the floor. -/
def quantizeMidi (v : ℚ) : ℤ := Int.floor (v * 127)

/-- The full argument triple `(channel, controller, value)` the example
callback passes to `midi.sendCC` for a delivered `(id, value)` event. -/
def sendCCArgs (id : ℕ) (v : ℚ) : ℕ × ℕ × ℤ :=
  (midiChannel, ccForId id, quantizeMidi v)

/-- C9: the core delivers to listeners the unquantized `NORMALIZED` value
(each dispatched event carries exactly `normValue` of the updated counter);
quantization to a MIDI byte happens only in the application callback as
`value * 127` truncated; and for every delivered value in `[0, 1]` and
configured encoder id the resulting `sendCC` arguments meet the collaborator
contract: channel in `[0, 15]`, controller in `[0, 127]`, value in
`[0, 127]`. -/
theorem midi_quantization_contract (id : ℕ) (v : ℚ)
    (hid : id ∈ configuredEncoders.map EncoderDef.id)
    (h0 : 0 ≤ v) (h1 : v ≤ 1) :
    (sendCCArgs id v).1 ≤ 15
    ∧ (sendCCArgs id v).2.1 ≤ 127
    ∧ 0 ≤ (sendCCArgs id v).2.2
    ∧ (sendCCArgs id v).2.2 ≤ 127
    ∧ (∀ d s ps ev, ev ∈ (encUpdate d s ps).2 →
        ev.2 = normValue d (normStep d s.counter (decodeStep s.qstate ps).2)) := by
  refine ⟨by norm_num [sendCCArgs, midiChannel], ?_, ?_, ?_, ?_⟩
  · have hid' : id = 1 ∨ id = 2 := by
      simpa [configuredEncoders, encoder1, encoder2] using hid
    rcases hid' with h | h <;> subst h <;> norm_num [sendCCArgs, ccForId]
  · show (0 : ℤ) ≤ quantizeMidi v
    unfold quantizeMidi
    rw [Int.le_floor]
    have : (0 : ℚ) ≤ v * 127 := mul_nonneg h0 (by norm_num)
    exact_mod_cast this
  · show quantizeMidi v ≤ 127
    unfold quantizeMidi
    have h2 : ((Int.floor (v * 127) : ℤ) : ℚ) ≤ 127 :=
      le_trans (Int.floor_le _) (by linarith)
    exact_mod_cast h2
  · intro d s ps ev hev
    by_cases hv : normValue d (normStep d s.counter (decodeStep s.qstate ps).2)
        = s.lastValue
    · exfalso
      simp only [encUpdate] at hev
      rw [if_pos hv] at hev
      simp at hev
    · simp only [encUpdate] at hev
      rw [if_neg hv] at hev
      simp at hev
      rw [hev]

/-- Witness for C9: encoder id `1` with the delivered value `1/2` —
channel `0`, controller `16`, quantized value `63`, all within contract. -/
theorem midi_quantization_contract_witness :
    (sendCCArgs 1 (1 / 2)).1 ≤ 15
    ∧ (sendCCArgs 1 (1 / 2)).2.1 ≤ 127
    ∧ 0 ≤ (sendCCArgs 1 (1 / 2)).2.2
    ∧ (sendCCArgs 1 (1 / 2)).2.2 ≤ 127 := by
  have h := midi_quantization_contract 1 (1 / 2) (by decide)
    (by norm_num) (by norm_num)
  exact ⟨h.1, h.2.1, h.2.2.1, h.2.2.2.1⟩

/-- Modelled from the spec (§6, MIDI collaborator contract, not under
`src/`): transport state — messages queued by `sendCC` and messages already
handed to the transport by `midi.update()`. -/
structure MidiState where
  pending : List (ℕ × ℕ × ℤ)
  sent : List (ℕ × ℕ × ℤ)
deriving DecidableEq

/-- Modelled from the spec (§6, not under `src/`): `sendCC` queues one
message on the collaborator. -/
def sendCC (m : MidiState) (msg : ℕ × ℕ × ℤ) : MidiState :=
  { m with pending := m.pending ++ [msg] }

/-- Modelled from the spec (§6, not under `src/`): `midi.update()` hands
every queued message to the transport. -/
def midiFlush (m : MidiState) : MidiState :=
  ⟨[], m.sent ++ m.pending⟩

/-- The encoder phase of one `loop()` iteration (`src/src/main.cpp` line
94): `encoders.update()` polls and synchronously dispatches the change
callbacks, each of which calls `midi.sendCC` with the example's
arguments. -/
def encodersPhase (encs : List (EncoderDef × EncState))
    (pins : List PinState) (m : MidiState) : MidiState :=
  (controllerUpdate encs pins).foldl
    (fun mm ev => sendCC mm (sendCCArgs ev.1 ev.2)) m

/-- One full `loop()` iteration (`src/src/main.cpp` lines 92–98):
`encoders.update()` completes — callbacks included — strictly before
`midi.update()` runs. -/
def loopIteration (encs : List (EncoderDef × EncState))
    (pins : List PinState) (m : MidiState) : MidiState :=
  midiFlush (encodersPhase encs pins m)

/-- Folding the dispatched events through `sendCC` queues exactly their
messages, in order, touching nothing else. -/
theorem encodersPhase_queues (evs : List (ℕ × ℚ)) (m : MidiState) :
    (evs.foldl (fun mm ev => sendCC mm (sendCCArgs ev.1 ev.2)) m).pending
      = m.pending ++ evs.map (fun ev => sendCCArgs ev.1 ev.2)
    ∧ (evs.foldl (fun mm ev => sendCC mm (sendCCArgs ev.1 ev.2)) m).sent
      = m.sent := by
  induction evs generalizing m with
  | nil => simp
  | cons ev evs ih =>
    have h := ih (sendCC m (sendCCArgs ev.1 ev.2))
    simp only [List.foldl_cons, List.map_cons] at h ⊢
    rw [h.1, h.2]
    simp [sendCC]

/-- C10: within one `loop()` iteration the encoder controller's `update()` —
including its synchronous callbacks and their `sendCC` calls — completes
before the MIDI collaborator's `update()` runs, so every CC message a
detected encoder change produces is handed to the MIDI transport in that
same iteration, leaving nothing queued. -/
theorem encoder_cc_sent_same_iteration (encs : List (EncoderDef × EncState))
    (pins : List PinState) (m : MidiState) :
    (∀ ev ∈ controllerUpdate encs pins,
      sendCCArgs ev.1 ev.2 ∈ (loopIteration encs pins m).sent)
    ∧ (loopIteration encs pins m).pending = [] := by
  have h := encodersPhase_queues (controllerUpdate encs pins) m
  constructor
  · intro ev hev
    show sendCCArgs ev.1 ev.2 ∈ (midiFlush (encodersPhase encs pins m)).sent
    unfold midiFlush
    show sendCCArgs ev.1 ev.2
      ∈ (encodersPhase encs pins m).sent ++ (encodersPhase encs pins m).pending
    unfold encodersPhase
    rw [h.1, h.2]
    have : sendCCArgs ev.1 ev.2
        ∈ (controllerUpdate encs pins).map (fun ev => sendCCArgs ev.1 ev.2) :=
      List.mem_map_of_mem _ hev
    exact List.mem_append_right _ (List.mem_append_right _ this)
  · show (midiFlush (encodersPhase encs pins m)).pending = []
    rfl

/-- Witness for C10: one encoder stepping `00 → 01` produces one change
event, and its CC message is in the transport's sent list after the same
iteration. -/
theorem encoder_cc_sent_same_iteration_witness :
    sendCCArgs encoder1.id (normValue encoder1 1)
      ∈ (loopIteration [(encoder1, ⟨(false, false), 0, 0⟩)]
          [(false, true)] ⟨[], []⟩).sent := by
  have hM : maxTicks encoder1 = 72 := by norm_num [maxTicks, encoder1]
  have he : effDelta encoder1 1 = 1 := by simp [effDelta, encoder1]
  have hstep : decodeStep (false, false) (false, true) = ((false, true), 1) := by
    decide
  have hns : normStep encoder1 0 1 = 1 := by
    unfold normStep
    rw [he, hM]
    decide
  have hv : normValue encoder1 1 = 1 / 72 := by
    unfold normValue
    rw [hM]
    norm_num
  have hvne : ¬ normValue encoder1 1 = (0 : ℚ) := by
    rw [hv]; norm_num
  have hcu : controllerUpdate [(encoder1, ⟨(false, false), 0, 0⟩)]
      [(false, true)] = [(encoder1.id, normValue encoder1 1)] := by
    unfold controllerUpdate
    simp only [List.zip_cons_cons, List.zip_nil_right, List.map_cons,
      List.map_nil, List.flatten]
    simp only [encUpdate, hstep, hns]
    rw [if_neg hvne]
    simp
  exact (encoder_cc_sent_same_iteration
      [(encoder1, ⟨(false, false), 0, 0⟩)] [(false, true)] ⟨[], []⟩).1
    (encoder1.id, normValue encoder1 1)
    (by rw [hcu]; exact List.mem_singleton_self _)
